import Mathlib

/-!
Verification development for a small static-file HTTP server (`server.js`).

The server is embedded shallowly:

* JS strings are `List Char`.
* The filesystem is a map from absolute, normalized path segments to entries
  (regular files with a readability flag, or directories).
* `decodeURI`, `path.join`, `path.extname` and `String.prototype.toLowerCase`
  are modelled after their documented Node.js / ECMAScript behaviour
  (percent-escape decoding with strict UTF-8 validation and preservation of
  escaped reserved characters; segment normalization resolving `.` and `..`;
  extension extraction from the basename; ASCII lowercasing).
* `serveFile`, `respondNotFound`, `handleRequest` mirror the functions of the
  same names in `server.js`; the part of `handleRequest` that runs after URL
  decoding is split into `resolve` so that properties of path resolution can
  be stated independently of percent-decoding.
* An uncaught exception in the handler (the `decodeURI` failure path, which
  `server.js` does not guard) is represented by the `HandlerResult.threw`
  outcome.
-/

/-- Shorthand: the character list of a string literal. -/
def toL (s : String) : List Char := s.toList

/-- Hexadecimal digit value, if the character is a hex digit. -/
def hexVal (c : Char) : Option Nat :=
  if '0' ≤ c ∧ c ≤ '9' then some (c.toNat - 48)
  else if 'A' ≤ c ∧ c ≤ 'F' then some (c.toNat - 55)
  else if 'a' ≤ c ∧ c ≤ 'f' then some (c.toNat - 87)
  else none

/-- The characters whose percent-escapes `decodeURI` leaves encoded
(`uriReserved` plus `#`). -/
def uriKeepsEncoded (c : Char) : Bool :=
  c ∈ toL ";/?:@&=+$,#"

/-- Is `b` a UTF-8 continuation byte? -/
def isCont (b : Nat) : Bool :=
  128 ≤ b ∧ b < 192

/-- Decoder for `decodeURI` on character lists.  Percent-escapes are decoded
byte-wise with strict UTF-8 validation (overlong forms, surrogates and
out-of-range code points are rejected); escapes of reserved characters are
kept in their encoded form; any malformed escape yields `none`, which models
the `URIError` that `decodeURI` throws. -/
def decodeList : List Char → Option (List Char)
  | [] => some []
  | '%' :: h1 :: h2 :: rest =>
    match hexVal h1, hexVal h2 with
    | some x, some y =>
      let b := 16 * x + y
      if b < 128 then
        let c := Char.ofNat b
        if uriKeepsEncoded c then
          (decodeList rest).map (fun t => '%' :: h1 :: h2 :: t)
        else
          (decodeList rest).map (fun t => c :: t)
      else if 194 ≤ b ∧ b ≤ 223 then
        match rest with
        | '%' :: a1 :: a2 :: rest2 =>
          match hexVal a1, hexVal a2 with
          | some x1, some y1 =>
            let b2 := 16 * x1 + y1
            if isCont b2 then
              (decodeList rest2).map
                (fun t => Char.ofNat ((b - 192) * 64 + (b2 - 128)) :: t)
            else none
          | _, _ => none
        | _ => none
      else if 224 ≤ b ∧ b ≤ 239 then
        match rest with
        | '%' :: a1 :: a2 :: '%' :: c1 :: c2 :: rest2 =>
          match hexVal a1, hexVal a2, hexVal c1, hexVal c2 with
          | some x1, some y1, some x2, some y2 =>
            let b2 := 16 * x1 + y1
            let b3 := 16 * x2 + y2
            let cp := (b - 224) * 4096 + (b2 - 128) * 64 + (b3 - 128)
            if isCont b2 ∧ isCont b3 ∧ 2048 ≤ cp ∧ ¬ (55296 ≤ cp ∧ cp ≤ 57343) then
              (decodeList rest2).map (fun t => Char.ofNat cp :: t)
            else none
          | _, _, _, _ => none
        | _ => none
      else if 240 ≤ b ∧ b ≤ 244 then
        match rest with
        | '%' :: a1 :: a2 :: '%' :: c1 :: c2 :: '%' :: d1 :: d2 :: rest2 =>
          match hexVal a1, hexVal a2, hexVal c1, hexVal c2, hexVal d1, hexVal d2 with
          | some x1, some y1, some x2, some y2, some x3, some y3 =>
            let b2 := 16 * x1 + y1
            let b3 := 16 * x2 + y2
            let b4 := 16 * x3 + y3
            let cp := (b - 240) * 262144 + (b2 - 128) * 4096 + (b3 - 128) * 64 + (b4 - 128)
            if isCont b2 ∧ isCont b3 ∧ isCont b4 ∧ 65536 ≤ cp ∧ cp ≤ 1114111 then
              (decodeList rest2).map (fun t => Char.ofNat cp :: t)
            else none
          | _, _, _, _, _, _ => none
        | _ => none
      else none
    | _, _ => none
  | '%' :: _ => none
  | c :: rest => (decodeList rest).map (fun t => c :: t)

/-- Model of JavaScript `decodeURI`; `none` models a thrown `URIError`. -/
def decodeURI (s : List Char) : Option (List Char) :=
  decodeList s

/-- Split a character list into path segments at `/` (the semantics of
`String.prototype.split('/')`). -/
def splitSlash : List Char → List (List Char)
  | [] => [[]]
  | '/' :: rest => [] :: splitSlash rest
  | c :: rest =>
    match splitSlash rest with
    | [] => [[c]]
    | s :: ss => (c :: s) :: ss

/-- Segment normalization of an absolute path, as performed by Node's
`path.join`/`path.normalize`: empty segments and `.` are dropped, `..` pops
the previous segment (and is dropped at the root). -/
def normSegs (acc : List (List Char)) : List (List Char) → List (List Char)
  | [] => acc
  | s :: rest =>
    if s = [] ∨ s = toL "." then normSegs acc rest
    else if s = toL ".." then normSegs acc.dropLast rest
    else normSegs (acc ++ [s]) rest

/-- The configured site root (`const ROOT = __dirname` in `server.js`),
modelled as the fixed absolute directory `/srv/site`. -/
def ROOT : List (List Char) := [toL "srv", toL "site"]

/-- An absolute filesystem path: its normalized segments plus whether its
string form carries a trailing slash. -/
structure AbsPath where
  segs : List (List Char)
  trail : Bool
deriving DecidableEq, Repr

/-- Does the character list end with a slash? -/
def lastIsSlash (l : List Char) : Bool :=
  l.getLastD ' ' = '/'

/-- Model of `path.join(ROOT, requestPath)`: concatenate and normalize;
a trailing slash of `requestPath` is preserved. -/
def joinRoot (requestPath : List Char) : AbsPath :=
  ⟨normSegs ROOT (splitSlash requestPath), lastIsSlash requestPath⟩

/-- The string concatenation `filePath + '.html'` of `server.js`, on the
`AbsPath` representation: with a trailing slash (or at the bare root) the
suffix becomes a new `.html` segment, otherwise it extends the last
segment. -/
def appendHtml (p : AbsPath) : AbsPath :=
  if p.trail ∨ p.segs = [] then ⟨p.segs ++ [toL ".html"], false⟩
  else ⟨p.segs.dropLast ++ [p.segs.getLastD [] ++ toL ".html"], false⟩

/-- On a reversed character list, split at the first `.` (the last dot of the
original list): returns the characters before the dot (still reversed) and
those after it, or `none` when there is no dot. -/
def splitLastDot : List Char → Option (List Char × List Char)
  | [] => none
  | c :: rest =>
    if c = '.' then some ([], rest)
    else (splitLastDot rest).map (fun pr => (c :: pr.1, pr.2))

/-- Model of Node's `path.extname` applied to a basename (no separators):
the suffix starting at the last `.`, except that a dot in first position
(a dotfile) and the special name `..` have no extension. -/
def extnameBase (b : List Char) : List Char :=
  if b = toL ".." then []
  else
    match splitLastDot b.reverse with
    | none => []
    | some (_, []) => []
    | some (e, _ :: _) => '.' :: e.reverse

/-- The basename of an absolute path (its last segment; trailing slashes are
ignored as `path.extname` does). -/
def lastSegOf (p : AbsPath) : List Char :=
  p.segs.reverse.headD []

/-- Model of `path.extname` on an absolute path. -/
def extnameOf (p : AbsPath) : List Char :=
  extnameBase (lastSegOf p)

/-- ASCII lowercasing of one character, the effect of JavaScript
`String.prototype.toLowerCase` on basic latin letters. -/
def lowerChar (c : Char) : Char :=
  if 65 ≤ c.toNat ∧ c.toNat ≤ 90 then Char.ofNat (c.toNat + 32) else c

/-- ASCII lowercasing of a character list. -/
def lowerStr (l : List Char) : List Char :=
  l.map lowerChar

/-- The `MIME_TYPES` table of `server.js`, as an association list. -/
def MIME_TYPES : List (List Char × List Char) :=
  [ (toL ".html", toL "text/html")
  , (toL ".css", toL "text/css")
  , (toL ".js", toL "application/javascript")
  , (toL ".png", toL "image/png")
  , (toL ".jpg", toL "image/jpeg")
  , (toL ".jpeg", toL "image/jpeg")
  , (toL ".svg", toL "image/svg+xml")
  , (toL ".json", toL "application/json") ]

/-- Property lookup `MIME_TYPES[ext]`. -/
def lookupMime (ext : List Char) : Option (List Char) :=
  (MIME_TYPES.find? (fun kv => kv.1 = ext)).map (fun kv => kv.2)

/-- A filesystem entry: a regular file (with contents and a readability flag
covering permission / I/O failures) or a directory. -/
inductive Entry
  | file (data : List Nat) (readable : Bool)
  | dir
deriving DecidableEq, Repr

/-- The filesystem: a map from normalized absolute segment lists to entries. -/
abbrev Fs := List (List Char) → Option Entry

/-- The error kinds `fs.readFile` can report. -/
inductive FsError
  | enoent
  | eisdir
  | enotdir
  | eacces
deriving DecidableEq, Repr

/-- Model of `fs.readFile`: fails on missing entries, directories, paths with
a trailing slash naming a file, and unreadable files. -/
def readFile (fs : Fs) (p : AbsPath) : Except FsError (List Nat) :=
  match fs p.segs with
  | none => Except.error FsError.enoent
  | some Entry.dir => Except.error FsError.eisdir
  | some (Entry.file data readable) =>
    if p.trail then Except.error FsError.enotdir
    else if readable then Except.ok data
    else Except.error FsError.eacces

/-- The entry `fs.statSync`-style calls observe at a path (a trailing slash
on a regular file makes the path invalid). -/
def entryAt (fs : Fs) (p : AbsPath) : Option Entry :=
  match fs p.segs with
  | none => none
  | some Entry.dir => some Entry.dir
  | some (Entry.file data readable) =>
    if p.trail then none else some (Entry.file data readable)

/-- Model of `fs.existsSync`. -/
def existsSync (fs : Fs) (p : AbsPath) : Bool :=
  (entryAt fs p).isSome

/-- Model of `fs.statSync(p).isFile()` (only called under `existsSync`). -/
def statIsFile (fs : Fs) (p : AbsPath) : Bool :=
  match entryAt fs p with
  | some (Entry.file _ _) => true
  | _ => false

/-- An HTTP response: status, `Content-Type` header, body bytes. -/
structure Response where
  status : Nat
  contentType : List Char
  body : List Nat
deriving DecidableEq, Repr

/-- The `respondNotFound` helper of `server.js`: 404, `text/html`, fixed HTML body. -/
def respondNotFound : Response :=
  ⟨404, toL "text/html", (toL "<h1>404 Not Found</h1>").map Char.toNat⟩

/-- The content type `serveFile` computes:
`MIME_TYPES[path.extname(filePath).toLowerCase()] || 'application/octet-stream'`. -/
def contentTypeOf (filePath : AbsPath) : List Char :=
  (lookupMime (lowerStr (extnameOf filePath))).getD (toL "application/octet-stream")

/-- The `serveFile` function of `server.js`: read the file; on any error respond 404,
otherwise 200 with the inferred content type. -/
def serveFile (fs : Fs) (filePath : AbsPath) : Response :=
  match readFile fs filePath with
  | Except.error _ => respondNotFound
  | Except.ok data => ⟨200, contentTypeOf filePath, data⟩

/-- An incoming HTTP request: method and raw URL. -/
structure Request where
  method : List Char
  url : List Char
deriving DecidableEq, Repr

/-- The observable outcome of the handler: a response, or an uncaught
exception escaping the handler. -/
inductive HandlerResult
  | resp (r : Response)
  | threw
deriving DecidableEq, Repr

/-- The computation of `requestPath` in `handleRequest`:
`urlPath.startsWith('/') ? urlPath.slice(1) : urlPath`. -/
def stripSlash (urlPath : List Char) : List Char :=
  match urlPath with
  | '/' :: rest => rest
  | _ => urlPath

/-- The resolution logic of `handleRequest` from the decoded URL path on:
root → `index.html`; `posts/` prefix → append `.html` when `path.extname` is
empty; `.html` suffix → direct; otherwise static asset if it exists and is a
regular file; else 404. -/
def resolve (fs : Fs) (urlPath : List Char) : Response :=
  let requestPath := stripSlash urlPath
  if urlPath = toL "/" ∨ urlPath = [] then
    serveFile fs (joinRoot (toL "index.html"))
  else if (toL "posts/").isPrefixOf requestPath then
    let filePath := joinRoot requestPath
    serveFile fs (if extnameOf filePath = [] then appendHtml filePath else filePath)
  else if (toL ".html").isSuffixOf requestPath then
    serveFile fs (joinRoot requestPath)
  else if existsSync fs (joinRoot requestPath) && statIsFile fs (joinRoot requestPath) then
    serveFile fs (joinRoot requestPath)
  else
    respondNotFound

/-- The `handleRequest` function of `server.js`: strip the query string, percent-decode
(an undecodable URL throws, uncaught), then resolve.  The request method is
never consulted. -/
def handleRequest (fs : Fs) (req : Request) : HandlerResult :=
  match decodeURI (req.url.takeWhile (fun c => c ≠ '?')) with
  | none => HandlerResult.threw
  | some urlPath => HandlerResult.resp (resolve fs urlPath)

/-- The target path each rule of `resolve` serves: the index document for the
root path, the (possibly `.html`-extended) joined path for the posts rule,
and the joined path for the `.html` rule and the static-asset rule.  The
target depends only on the URL path; whether it is actually served depends on
the filesystem. -/
def resolveTarget (urlPath : List Char) : AbsPath :=
  let requestPath := stripSlash urlPath
  if urlPath = toL "/" ∨ urlPath = [] then
    joinRoot (toL "index.html")
  else if (toL "posts/").isPrefixOf requestPath then
    let filePath := joinRoot requestPath
    if extnameOf filePath = [] then appendHtml filePath else filePath
  else
    joinRoot requestPath

/-- A filesystem with a single readable file `/etc/passwd`, outside the site
root `/srv/site`. -/
def fsTraversal : Fs := fun segs =>
  if segs = [toL "etc", toL "passwd"] then some (Entry.file [115, 101, 99] true) else none

/-- A filesystem with a single readable file `/srv/site/index.html`. -/
def fsIndex : Fs := fun segs =>
  if segs = [toL "srv", toL "site", toL "index.html"] then
    some (Entry.file [104, 105] true)
  else none

/-- A filesystem with a single unreadable (permission-denied) file
`/srv/site/secret.txt`. -/
def fsSecret : Fs := fun segs =>
  if segs = [toL "srv", toL "site", toL "secret.txt"] then some (Entry.file [1] false) else none

/-- The absolute path `/srv/site/secret.txt`. -/
def secretPath : AbsPath := ⟨[toL "srv", toL "site", toL "secret.txt"], false⟩

/-- A filesystem with a single readable file `/srv/site/images/logo.png`. -/
def fsPng : Fs := fun segs =>
  if segs = [toL "srv", toL "site", toL "images", toL "logo.png"] then
    some (Entry.file [9] true)
  else none

/-- The absolute path `/srv/site/images/logo.png`. -/
def pngPath : AbsPath := ⟨[toL "srv", toL "site", toL "images", toL "logo.png"], false⟩

/-- A filesystem with a single readable file `/srv/site/posts/.hidden`. -/
def fsDot : Fs := fun segs =>
  if segs = [toL "srv", toL "site", toL "posts", toL ".hidden"] then
    some (Entry.file [7] true)
  else none

/-- A filesystem whose only entry is a directory `/srv/site/assets`. -/
def fsDir : Fs := fun segs =>
  if segs = [toL "srv", toL "site", toL "assets"] then some Entry.dir else none

/-- An absolute path with every segment ASCII-lowercased. -/
def lowerAbs (p : AbsPath) : AbsPath :=
  ⟨p.segs.map (fun s => s.map lowerChar), p.trail⟩

/-- If `readFile` succeeds then the filesystem holds a readable regular file
with exactly the returned data at the path's segments. -/
theorem readFile_ok_file (fs : Fs) (p : AbsPath) (data : List Nat)
    (h : readFile fs p = Except.ok data) : fs p.segs = some (Entry.file data true) := by
  unfold readFile at h
  cases he : fs p.segs with
  | none => simp [he] at h
  | some e =>
    cases e with
    | dir => simp [he] at h
    | file d r => cases ht : p.trail <;> cases hr : r <;> simp_all

/-- On a readable regular file (no trailing slash) answers 200
with the file's bytes and the inferred content type. -/
theorem serveFile_ok (fs : Fs) (p : AbsPath) (data : List Nat)
    (hf : fs p.segs = some (Entry.file data true)) (ht : p.trail = false) :
    serveFile fs p = ⟨200, contentTypeOf p, data⟩ := by
  simp [serveFile, readFile, hf, ht]

/-- Every `serveFile` answer is the fixed 404 response or a 200 response. -/
theorem serveFile_cases (fs : Fs) (p : AbsPath) :
    serveFile fs p = respondNotFound ∨
      ∃ ct data, serveFile fs p = ⟨200, ct, data⟩ := by
  unfold serveFile
  cases readFile fs p with
  | error e => exact Or.inl rfl
  | ok data => exact Or.inr ⟨contentTypeOf p, data, rfl⟩

/-- A 200 answer of `serveFile` exposes a readable regular file of the
filesystem as its body. -/
theorem serveFile_200_file (fs : Fs) (p : AbsPath) (ct : List Char) (data : List Nat)
    (h : serveFile fs p = ⟨200, ct, data⟩) : fs p.segs = some (Entry.file data true) := by
  unfold serveFile at h
  cases hr : readFile fs p with
  | error e => rw [hr] at h; simp [respondNotFound] at h
  | ok d =>
    rw [hr] at h
    cases h
    exact readFile_ok_file fs p data hr

/-- C1: the claim asserts that every request path escaping the site root
after normalization is answered 404; the code has no such check, and the
static-asset branch serves `/etc/passwd` (outside `/srv/site`) for the raw
request path `/../../etc/passwd` with status 200. -/
theorem c1_traversal_escapes_root :
    ROOT.isPrefixOf (joinRoot (toL "../../etc/passwd")).segs = false ∧
    handleRequest fsTraversal ⟨toL "GET", toL "/../../etc/passwd"⟩ =
      HandlerResult.resp ⟨200, toL "application/octet-stream", [115, 101, 99]⟩ := by
  decide

/-- C2: the claim asserts the handler never throws on malformed input; but
`decodeURI` throws a `URIError` on the invalid percent-escape `/%`, and
`handleRequest` does not catch it, for every filesystem and method. -/
theorem c2_malformed_escape_throws (fs : Fs) (m : List Char) :
    handleRequest fs ⟨m, toL "/%"⟩ = HandlerResult.threw := rfl

/-- C4: the root path and the empty path are both answered by serving the
canonical index document `/srv/site/index.html`. -/
theorem c4_root_serves_index (fs : Fs) (data : List Nat)
    (h : fs [toL "srv", toL "site", toL "index.html"] = some (Entry.file data true)) :
    resolve fs (toL "/") = ⟨200, toL "text/html", data⟩ ∧
    resolve fs (toL "") = ⟨200, toL "text/html", data⟩ := by
  have hj : joinRoot (toL "index.html") = ⟨[toL "srv", toL "site", toL "index.html"], false⟩ := by
    decide
  have h200 := serveFile_ok fs (joinRoot (toL "index.html")) data (by rw [hj]; exact h) (by rw [hj])
  have hct : contentTypeOf (joinRoot (toL "index.html")) = toL "text/html" := by decide
  rw [hct] at h200
  constructor
  · show serveFile fs (joinRoot (toL "index.html")) = _
    exact h200
  · show serveFile fs (joinRoot (toL "index.html")) = _
    exact h200

/-- Witness for C4 on a concrete filesystem. -/
theorem c4_witness :
    resolve fsIndex (toL "/") = ⟨200, toL "text/html", [104, 105]⟩ ∧
    resolve fsIndex (toL "") = ⟨200, toL "text/html", [104, 105]⟩ :=
  c4_root_serves_index fsIndex [104, 105] (by decide)

/-- C8: resolution is a pure function of the request and the filesystem:
two calls with the same input in the same filesystem state agree. -/
theorem c8_resolution_deterministic (fs : Fs) (req : Request) (r₁ r₂ : HandlerResult)
    (h₁ : handleRequest fs req = r₁) (h₂ : handleRequest fs req = r₂) : r₁ = r₂ :=
  h₁.symm.trans h₂

/-- Witness for C8 on a concrete request against the empty filesystem. -/
theorem c8_witness :
    HandlerResult.resp respondNotFound = HandlerResult.resp respondNotFound :=
  c8_resolution_deterministic (fun _ => none) ⟨toL "GET", toL "/missing"⟩
    (HandlerResult.resp respondNotFound) (HandlerResult.resp respondNotFound)
    (by decide) (by decide)

/-- C9: the handler never inspects the request method, so two requests
differing only in their method receive identical outcomes. -/
theorem c9_method_never_inspected (fs : Fs) (m₁ m₂ u : List Char) :
    handleRequest fs ⟨m₁, u⟩ = handleRequest fs ⟨m₂, u⟩ := rfl

/-- Every resolution either goes through `serveFile` at some path or is the
fixed 404 response. -/
theorem resolve_shape (fs : Fs) (u : List Char) :
    (∃ p, resolve fs u = serveFile fs p) ∨ resolve fs u = respondNotFound := by
  simp only [resolve]
  split_ifs <;> first | exact Or.inl ⟨_, rfl⟩ | exact Or.inr rfl

/-- C5: the failure response is exactly 404 / `text/html` / the fixed HTML
body; every `readFile` error kind collapses to it, and every resolution
produces either exactly that response or a 200 response. -/
theorem c5_uniform_failure :
    respondNotFound = ⟨404, toL "text/html", (toL "<h1>404 Not Found</h1>").map Char.toNat⟩ ∧
    (∀ (fs : Fs) (p : AbsPath) (e : FsError),
        readFile fs p = Except.error e → serveFile fs p = respondNotFound) ∧
    (∀ (fs : Fs) (u : List Char),
        resolve fs u = respondNotFound ∨ ∃ ct data, resolve fs u = ⟨200, ct, data⟩) := by
  refine ⟨rfl, ?_, ?_⟩
  · intro fs p e h
    unfold serveFile
    rw [h]
  · intro fs u
    rcases resolve_shape fs u with ⟨p, hp⟩ | hn
    · rw [hp]
      exact serveFile_cases fs p
    · exact Or.inl hn

/-- Witness for C5: a permission error is answered with the fixed 404
response. -/
theorem c5_witness : serveFile fsSecret secretPath = respondNotFound :=
  c5_uniform_failure.2.1 fsSecret secretPath FsError.eacces rfl

/-- C6: the content type of every successfully served file is obtained from
the static extension table: a known (lowercased) extension yields its table
entry, an unknown one the generic binary type. -/
theorem c6_content_type_total_mapping (fs : Fs) (p : AbsPath) (ct : List Char) (data : List Nat)
    (h : serveFile fs p = ⟨200, ct, data⟩) :
    (∀ v, lookupMime (lowerStr (extnameOf p)) = some v → ct = v) ∧
    (lookupMime (lowerStr (extnameOf p)) = none → ct = toL "application/octet-stream") := by
  have hct : ct = contentTypeOf p := by
    unfold serveFile at h
    cases hr : readFile fs p with
    | error e => rw [hr] at h; simp [respondNotFound] at h
    | ok d =>
      rw [hr] at h
      simp only [Response.mk.injEq] at h
      exact h.2.1.symm
  subst hct
  constructor
  · intro v hv
    unfold contentTypeOf
    rw [hv]
    rfl
  · intro hv
    unfold contentTypeOf
    rw [hv]
    rfl

/-- Witness for C6 on the `.png` example. -/
theorem c6_witness :
    (∀ v, lookupMime (lowerStr (extnameOf pngPath)) = some v → toL "image/png" = v) ∧
    (lookupMime (lowerStr (extnameOf pngPath)) = none →
      toL "image/png" = toL "application/octet-stream") :=
  c6_content_type_total_mapping fsPng pngPath (toL "image/png") [9] (by decide)

/-- A true `statSync(..).isFile()` implies the path exists. -/
theorem existsSync_of_statIsFile (fs : Fs) (p : AbsPath) (h : statIsFile fs p = true) :
    existsSync fs p = true := by
  unfold statIsFile at h
  unfold existsSync
  cases he : entryAt fs p with
  | none =>
    rw [he] at h
    exact Bool.noConfusion h
  | some e => rfl

/-- Every resolution either answers `serveFile` at exactly the resolved
target of its rule, or answers the fixed 404 after the static-asset guard saw
that the target is not a regular file. -/
theorem resolve_target_shape (fs : Fs) (u : List Char) :
    resolve fs u = serveFile fs (resolveTarget u) ∨
      (resolve fs u = respondNotFound ∧ statIsFile fs (resolveTarget u) = false) := by
  simp only [resolve, resolveTarget]
  split_ifs with h1 h2 h3 h4 h5
  · exact Or.inl rfl
  · exact Or.inl rfl
  · exact Or.inl rfl
  · exact Or.inl rfl
  · exact Or.inl rfl
  · refine Or.inr ⟨rfl, ?_⟩
    cases hst : statIsFile fs (joinRoot (stripSlash u)) with
    | false => rfl
    | true =>
      exact absurd (by rw [existsSync_of_statIsFile fs _ hst, hst]; rfl) h5

/-- C7: whenever the target a request resolves to (through the root rule, the
articles rule, the `.html` rule, or the static-asset rule) is a directory of
the filesystem, the outcome is the fixed 404 response; and every 200 outcome
serves exactly the readable regular file stored at the resolved target. -/
theorem c7_directory_target_not_found :
    (∀ (fs : Fs) (u : List Char),
        fs (resolveTarget u).segs = some Entry.dir → resolve fs u = respondNotFound) ∧
    (∀ (fs : Fs) (u ct : List Char) (data : List Nat),
        resolve fs u = ⟨200, ct, data⟩ →
        fs (resolveTarget u).segs = some (Entry.file data true)) := by
  constructor
  · intro fs u h
    rcases resolve_target_shape fs u with hs | ⟨hn, _⟩
    · rw [hs]
      unfold serveFile readFile
      rw [h]
    · exact hn
  · intro fs u ct data h
    rcases resolve_target_shape fs u with hs | ⟨hn, _⟩
    · rw [hs] at h
      exact serveFile_200_file fs (resolveTarget u) ct data h
    · rw [hn] at h
      simp [respondNotFound] at h

/-- Witness for C7: the directory `/srv/site/assets`, requested through the
static-asset rule, is answered with the fixed 404 response. -/
theorem c7_witness : resolve fsDir (toL "/assets") = respondNotFound :=
  c7_directory_target_not_found.1 fsDir (toL "/assets") (by decide)

/-- The function `splitLastDot` returns `none` exactly when the list has no dot. -/
theorem splitLastDot_eq_none_iff (l : List Char) : splitLastDot l = none ↔ '.' ∉ l := by
  induction l with
  | nil => simp [splitLastDot]
  | cons c rest ih =>
    by_cases hc : c = '.'
    · subst hc
      simp [splitLastDot]
    · simp only [splitLastDot, if_neg hc, Option.map_eq_none', ih, List.mem_cons]
      constructor
      · intro h hm
        rcases hm with hm | hm
        · exact hc hm.symm
        · exact h hm
      · intro h hm
        exact h (Or.inr hm)

/-- A successful `splitLastDot` decomposes the list at its first dot, with no
dot before it. -/
theorem splitLastDot_eq_some (l e r : List Char) (h : splitLastDot l = some (e, r)) :
    l = e ++ '.' :: r ∧ '.' ∉ e := by
  induction l generalizing e r with
  | nil => simp [splitLastDot] at h
  | cons c rest ih =>
    by_cases hc : c = '.'
    · subst hc
      simp only [splitLastDot, if_pos rfl, Option.some.injEq, Prod.mk.injEq] at h
      obtain ⟨rfl, rfl⟩ := h
      exact ⟨rfl, by simp⟩
    · simp only [splitLastDot, if_neg hc, Option.map_eq_some'] at h
      obtain ⟨⟨e', r'⟩, hsp, heq⟩ := h
      simp only [Prod.mk.injEq] at heq
      obtain ⟨rfl, rfl⟩ := heq
      obtain ⟨hl, hnd⟩ := ih e' r' hsp
      constructor
      · rw [hl]
        rfl
      · intro hm
        rcases List.mem_cons.1 hm with hm | hm
        · exact hc hm.symm
        · exact hnd hm

/-- Characterization of an empty `path.extname` on a basename: no extension
exactly when the basename has no dot past its first character, or is the
special segment `..`. -/
theorem extnameBase_eq_nil_iff (b : List Char) :
    extnameBase b = [] ↔ ('.' ∉ b.drop 1 ∨ b = toL "..") := by
  by_cases hdd : b = toL ".."
  · simp [extnameBase, hdd]
  · unfold extnameBase
    rw [if_neg hdd]
    cases hs : splitLastDot b.reverse with
    | none =>
      have hnb : '.' ∉ b := by
        have hnr := (splitLastDot_eq_none_iff b.reverse).1 hs
        intro hm
        exact hnr (List.mem_reverse.2 hm)
      exact iff_of_true rfl (Or.inl (fun hm => hnb (List.drop_subset 1 b hm)))
    | some pr =>
      obtain ⟨e, rem⟩ := pr
      obtain ⟨hrev, hnd⟩ := splitLastDot_eq_some b.reverse e rem hs
      have hb : b = (e ++ '.' :: rem).reverse := by
        rw [← hrev, List.reverse_reverse]
      cases rem with
      | nil =>
        have hb' : b = '.' :: e.reverse := by
          rw [hb, List.reverse_append]
          rfl
        refine iff_of_true rfl (Or.inl ?_)
        rw [hb']
        intro hm
        exact hnd (List.mem_reverse.1 hm)
      | cons r0 rs =>
        have hb' : b = (r0 :: rs).reverse ++ '.' :: e.reverse := by
          rw [hb, List.reverse_append, List.reverse_cons]
          simp
        refine iff_of_false (by simp) ?_
        rintro (hnotin | habs)
        · apply hnotin
          rw [hb', List.drop_append_of_le_length (by simp)]
          exact List.mem_append_right _ (List.mem_cons_self _ _)
        · exact hdd habs

/-- C3 counterexample: for the posts path `/posts/.hidden` the trailing
segment `.hidden` does contain a `.`, so the claim forbids appending `.html`
and requires the literal existing readable file to be served; the code
nevertheless appends `.html` (the `path.extname` of a dotfile is empty) and
answers 404. -/
theorem c3_counterexample :
    ('.' ∈ toL ".hidden") ∧
    fsDot [toL "srv", toL "site", toL "posts", toL ".hidden"] = some (Entry.file [7] true) ∧
    handleRequest fsDot ⟨toL "GET", toL "/posts/.hidden"⟩ =
      HandlerResult.resp respondNotFound := by
  decide

/-- C3 (amended): within the posts namespace, `.html` is appended exactly
when `path.extname` of the joined path is empty, i.e. when the trailing
segment has no `.` past its first character or is `..`; a dotfile trailing
segment therefore also receives the `.html` suffix. -/
theorem c3_posts_extension_rule (fs : Fs) (rp : List Char)
    (hp : (toL "posts/").isPrefixOf rp = true) :
    resolve fs ('/' :: rp) =
      serveFile fs
        (if '.' ∈ (lastSegOf (joinRoot rp)).drop 1 ∧ lastSegOf (joinRoot rp) ≠ toL ".."
         then joinRoot rp
         else appendHtml (joinRoot rp)) := by
  have hne : rp ≠ [] := by
    intro h
    subst h
    rw [show toL "posts/" = ['p', 'o', 's', 't', 's', '/'] from rfl] at hp
    simp [List.isPrefixOf] at hp
  have h1 : ¬ (('/' :: rp : List Char) = toL "/" ∨ ('/' :: rp : List Char) = []) := by
    rintro (h | h)
    · rw [show toL "/" = ['/'] from rfl] at h
      injection h with _ h2
      exact hne h2
    · exact List.cons_ne_nil _ _ h
  have hstrip : stripSlash ('/' :: rp) = rp := rfl
  simp only [resolve, hstrip]
  rw [if_neg h1, if_pos hp]
  show serveFile fs
      (if extnameOf (joinRoot rp) = [] then appendHtml (joinRoot rp) else joinRoot rp) = _
  refine congrArg (serveFile fs) ?_
  by_cases hext : extnameOf (joinRoot rp) = []
  · have hcond : ¬ ('.' ∈ (lastSegOf (joinRoot rp)).drop 1 ∧
        lastSegOf (joinRoot rp) ≠ toL "..") := by
      have hiff := (extnameBase_eq_nil_iff (lastSegOf (joinRoot rp))).1 hext
      rintro ⟨hin, hneq⟩
      rcases hiff with h' | h'
      · exact h' hin
      · exact hneq h'
    rw [if_pos hext, if_neg hcond]
  · have hcond : '.' ∈ (lastSegOf (joinRoot rp)).drop 1 ∧
        lastSegOf (joinRoot rp) ≠ toL ".." := by
      constructor
      · by_contra hnin
        exact hext ((extnameBase_eq_nil_iff _).2 (Or.inl hnin))
      · intro hdd
        exact hext ((extnameBase_eq_nil_iff _).2 (Or.inr hdd))
    rw [if_neg hext, if_pos hcond]

/-- Witness for the amended C3: the extensionless posts path `/posts/foo`
goes through the `.html`-appending branch. -/
theorem c3_witness :
    resolve fsDot ('/' :: toL "posts/foo") =
      serveFile fsDot
        (if '.' ∈ (lastSegOf (joinRoot (toL "posts/foo"))).drop 1 ∧
            lastSegOf (joinRoot (toL "posts/foo")) ≠ toL ".."
         then joinRoot (toL "posts/foo")
         else appendHtml (joinRoot (toL "posts/foo"))) :=
  c3_posts_extension_rule fsDot (toL "posts/foo") (by decide)

/-- The conversion `Char.ofNat` round-trips on scalar values below the surrogate range. -/
theorem toNat_ofNat_small (n : Nat) (h : n < 55296) : (Char.ofNat n).toNat = n := by
  have hv : n.isValidChar := Or.inl h
  simp [Char.ofNat, hv, Char.ofNatAux, Char.toNat, UInt32.toNat, BitVec.toNat_ofNatLt]

/-- The scalar value of `lowerChar`: shifted by 32 on `A`–`Z`, unchanged
otherwise. -/
theorem lowerChar_toNat (c : Char) :
    (lowerChar c).toNat = if 65 ≤ c.toNat ∧ c.toNat ≤ 90 then c.toNat + 32 else c.toNat := by
  unfold lowerChar
  split_ifs with h
  · exact toNat_ofNat_small _ (by omega)
  · rfl

/-- The map `lowerChar` fixes every character outside `A`–`Z`. -/
theorem lowerChar_fix (c : Char) (h : ¬ (65 ≤ c.toNat ∧ c.toNat ≤ 90)) :
    lowerChar c = c := by
  unfold lowerChar
  rw [if_neg h]

/-- No character other than `.` is mapped to `.` by `lowerChar`. -/
theorem lowerChar_eq_dot_iff (c : Char) : lowerChar c = '.' ↔ c = '.' := by
  constructor
  · intro h
    by_cases hu : 65 ≤ c.toNat ∧ c.toNat ≤ 90
    · exfalso
      have ht := congrArg Char.toNat h
      rw [lowerChar_toNat, if_pos hu] at ht
      rw [show ('.' : Char).toNat = 46 from rfl] at ht
      omega
    · rwa [lowerChar_fix c hu] at h
  · intro h
    subst h
    rfl

/-- Idempotence of `lowerChar`. -/
theorem lowerChar_idem (c : Char) : lowerChar (lowerChar c) = lowerChar c := by
  by_cases hu : 65 ≤ c.toNat ∧ c.toNat ≤ 90
  · have ht := lowerChar_toNat c
    rw [if_pos hu] at ht
    exact lowerChar_fix _ (by omega)
  · rw [lowerChar_fix c hu, lowerChar_fix c hu]

/-- Commutation of `splitLastDot` with ASCII lowercasing. -/
theorem splitLastDot_map_lower (l : List Char) :
    splitLastDot (l.map lowerChar) =
      (splitLastDot l).map (fun pr => (pr.1.map lowerChar, pr.2.map lowerChar)) := by
  induction l with
  | nil => rfl
  | cons c rest ih =>
    by_cases hc : c = '.'
    · subst hc
      simp [splitLastDot, show lowerChar '.' = '.' from rfl]
    · have hc' : lowerChar c ≠ '.' := fun h => hc ((lowerChar_eq_dot_iff c).1 h)
      simp only [List.map_cons, splitLastDot, if_neg hc, if_neg hc', ih]
      cases splitLastDot rest <;> rfl

/-- Lowercasing preserves being exactly the segment `..`. -/
theorem map_lower_eq_dotdot_iff (b : List Char) :
    b.map lowerChar = toL ".." ↔ b = toL ".." := by
  rw [show toL ".." = ['.', '.'] from rfl]
  cases b with
  | nil => simp
  | cons c1 t =>
    cases t with
    | nil => simp
    | cons c2 t2 => simp [lowerChar_eq_dot_iff]

/-- Commutation of `path.extname` with ASCII lowercasing of the basename. -/
theorem extnameBase_map_lower (b : List Char) :
    extnameBase (b.map lowerChar) = (extnameBase b).map lowerChar := by
  unfold extnameBase
  by_cases hdd : b = toL ".."
  · rw [if_pos hdd, if_pos ((map_lower_eq_dotdot_iff b).2 hdd)]
    rfl
  · rw [if_neg hdd, if_neg (fun h => hdd ((map_lower_eq_dotdot_iff b).1 h))]
    rw [← List.map_reverse, splitLastDot_map_lower]
    cases hs : splitLastDot b.reverse with
    | none => rfl
    | some pr =>
      obtain ⟨e, rem⟩ := pr
      cases rem with
      | nil => rfl
      | cons r0 rs => simp [List.map_reverse, show lowerChar '.' = '.' from rfl]

/-- The basename of a lowercased path is the lowercased basename. -/
theorem lastSegOf_lowerAbs (p : AbsPath) :
    lastSegOf (lowerAbs p) = (lastSegOf p).map lowerChar := by
  show ((p.segs.map (fun s => s.map lowerChar)).reverse).headD [] =
    (p.segs.reverse.headD []).map lowerChar
  rw [← List.map_reverse]
  cases p.segs.reverse with
  | nil => rfl
  | cons a t => rfl

/-- Idempotence of `lowerStr`. -/
theorem lowerStr_idem (l : List Char) : lowerStr (lowerStr l) = lowerStr l := by
  unfold lowerStr
  rw [List.map_map]
  exact List.map_congr_left (fun a _ => lowerChar_idem a)

/-- C10: the MIME lookup key is the lowercased extension, so a path and its
ASCII-lowercased counterpart receive the same content type; in particular a
file named `logo.PNG` is served as `image/png`. -/
theorem c10_extension_lookup_case_insensitive :
    (∀ p : AbsPath, contentTypeOf (lowerAbs p) = contentTypeOf p) ∧
    contentTypeOf ⟨[toL "srv", toL "site", toL "logo.PNG"], false⟩ = toL "image/png" := by
  constructor
  · intro p
    unfold contentTypeOf
    have he : lowerStr (extnameOf (lowerAbs p)) = lowerStr (extnameOf p) := by
      unfold extnameOf
      rw [lastSegOf_lowerAbs, extnameBase_map_lower]
      exact lowerStr_idem (extnameBase (lastSegOf p))
    rw [he]
  · decide
